import Mathlib

/-!
# Verification of the document chunking subsystem

Shallow embedding of `packages/etl/processors/chunker.py` (class `DocumentChunker`
and the `Chunk` dataclass) together with the relevant part of
`packages/core/utils/config.py` (the `Settings` defaults used by the constructor).

Text is modelled as `List Char`; Python's `len(s) // 4` token estimator, its
`str.strip`, `re.split` based sentence/paragraph/section splitting, negative-index
slicing, and insertion-ordered `dict` semantics are each given a faithful
executable definition.  Character positions are `Nat` (the running cursor only
increases); stored chunk offsets are `Int` because `char_position - len(chunk_text)`
can go below zero in the overlap path.
-/

set_option maxRecDepth 4000

namespace Chunker

/-- ASCII whitespace recognised by Python's `str.strip()` and by `\s` in the
regexes used here (all inputs of interest are ASCII). -/
def isSpace (c : Char) : Bool :=
  c = ' ' || c = '\t' || c = '\n' || c = '\r' || c = '\x0b' || c = '\x0c'

/-- Python `str.strip()`: drop whitespace from both ends. -/
def pyStrip (l : List Char) : List Char :=
  ((l.dropWhile isSpace).reverse.dropWhile isSpace).reverse

/-- Python slice `s[i:]` with full negative-index semantics:
a negative `i` counts from the end, clamped at 0. -/
def pySliceFrom (s : List Char) (i : Int) : List Char :=
  if i < 0 then s.drop ((s.length + i).toNat) else s.drop i.toNat

/-- `DocumentChunker._estimate_tokens`: `len(text) // 4`. -/
def estimate_tokens (l : List Char) : Nat := l.length / 4

/-- Sentence-terminating punctuation of the lookbehind `(?<=[.!?])`. -/
def isSentEnd (c : Char) : Bool := c = '.' || c = '!' || c = '?'

theorem length_dropWhile_le (p : Char → Bool) (l : List Char) :
    (l.dropWhile p).length ≤ l.length := by
  induction l with
  | nil => simp [List.dropWhile]
  | cons c cs ih =>
    simp only [List.dropWhile]
    cases p c
    · simp
    · simp; omega

/-- Scanner for `re.split(r'(?<=[.!?])\s+', text)`: split at every maximal
whitespace run that is immediately preceded by `.`, `!` or `?`, consuming
the run.  `prevEnd` records whether the previous character was such
punctuation; `acc` is the current piece, reversed.  The `fuel` argument only
makes the recursion structural (every step consumes at least one character,
so `fuel = length + 1` never runs out); the fallback branch is unreachable. -/
def splitSentAux : Nat → Bool → List Char → List Char → List (List Char)
  | 0, _, acc, l => [acc.reverse ++ l]
  | _ + 1, _, acc, [] => [acc.reverse]
  | fuel + 1, prevEnd, acc, c :: rest =>
    if prevEnd && isSpace c then
      acc.reverse :: splitSentAux fuel false [] (rest.dropWhile isSpace)
    else
      splitSentAux fuel (isSentEnd c) (c :: acc) rest

/-- `DocumentChunker._split_by_sentences`: regex split, then strip each piece
and drop the empty ones. -/
def split_by_sentences (text : List Char) : List (List Char) :=
  ((splitSentAux (text.length + 1) false [] text).map pyStrip).filter (· ≠ [])

/-- Scanner for `re.split(r'\n\n+', text)`: split at every maximal run of two
or more newlines, consuming the run.  `fuel` as in `splitSentAux`. -/
def splitParaAux : Nat → List Char → List Char → List (List Char)
  | 0, acc, l => [acc.reverse ++ l]
  | _ + 1, acc, [] => [acc.reverse]
  | fuel + 1, acc, c :: rest =>
    if c = '\n' ∧ rest.head? = some '\n' then
      acc.reverse :: splitParaAux fuel [] ((rest.dropWhile (· = '\n')))
    else
      splitParaAux fuel (c :: acc) rest

/-- `DocumentChunker._split_by_paragraphs`: regex split on blank lines, then
strip each piece and drop the empty ones. -/
def split_by_paragraphs (text : List Char) : List (List Char) :=
  ((splitParaAux (text.length + 1) [] text).map pyStrip).filter (· ≠ [])

/-- Python `sep.join(parts)`. -/
def joinSep (sep : List Char) : List (List Char) → List Char
  | [] => []
  | [x] => x
  | x :: xs => x ++ sep ++ joinSep sep xs

/-- Values stored in chunk metadata dictionaries. -/
inductive MetaVal where
  | str : List Char → MetaVal
  | nat : Nat → MetaVal
  | headers : List (Nat × List Char) → MetaVal
deriving DecidableEq, Repr

/-- Insertion-ordered Python `dict` from string keys to metadata values. -/
abbrev Dict := List (String × MetaVal)

/-- Python `d[k] = v` / the `{**d, k: v}` merge for a single key: update the
value in place if the key is present (its position is kept), else append. -/
def dictInsert (d : Dict) (k : String) (v : MetaVal) : Dict :=
  if (d.map Prod.fst).contains k then
    d.map (fun p => if p.1 = k then (k, v) else p)
  else d ++ [(k, v)]

/-- Python `d.get(k)`. -/
def dictGet? (d : Dict) (k : String) : Option MetaVal :=
  (d.find? (fun p => p.1 = k)).map Prod.snd

/-- The `Chunk` dataclass. -/
structure Chunk where
  content : List Char
  index : Nat
  start_char : Int
  end_char : Int
  token_count : Nat
  metadata : Dict
deriving DecidableEq, Repr

/-- The fields of `Settings` (config.py) consumed by `DocumentChunker.__init__`. -/
structure Settings where
  chunk_size_tokens : Int
  chunk_overlap_tokens : Int
deriving DecidableEq, Repr

/-- The in-code defaults of `Settings` (used when no environment override exists). -/
def defaultSettings : Settings := ⟨500, 50⟩

/-- Python `x or d` for `x : Optional[int]`: `None` and `0` are both falsy. -/
def pyOrInt (x : Option Int) (d : Int) : Int :=
  match x with
  | none => d
  | some v => if v = 0 then d else v

/-- The configuration state a `DocumentChunker` instance holds after `__init__`. -/
structure DocumentChunker where
  chunk_size : Int
  chunk_overlap : Int
deriving DecidableEq, Repr

/-- `DocumentChunker.__init__`:
`self.chunk_size = chunk_size or settings.chunk_size_tokens` and likewise for
the overlap.  There is no validation of either argument. -/
def DocumentChunker.make (settings : Settings)
    (chunk_size chunk_overlap : Option Int) : DocumentChunker :=
  ⟨pyOrInt chunk_size settings.chunk_size_tokens,
   pyOrInt chunk_overlap settings.chunk_overlap_tokens⟩

/-- The shared prologue of `chunk_text` / `chunk_markdown`:
`base_metadata = metadata or {}` followed by
`if source_id: base_metadata["source_id"] = source_id`. -/
def mkBaseMetadata (metadata : Option Dict) (source_id : Option (List Char)) : Dict :=
  let bm := metadata.getD []
  match source_id with
  | some sid => if sid ≠ [] then dictInsert bm "source_id" (MetaVal.str sid) else bm
  | none => bm

/-- Models the caller-visible state of the `metadata` argument after a
`chunk_text`/`chunk_markdown` call returns: `base_metadata = metadata or {}`
aliases the caller's dict whenever that dict is truthy (not `None`, not empty),
so `base_metadata["source_id"] = source_id` then mutates the caller's dict
in place. -/
def metadataAfterCall (metadata : Option Dict) (source_id : Option (List Char)) :
    Option Dict :=
  match metadata with
  | none => none
  | some d =>
    if d = [] then some d
    else
      match source_id with
      | some sid =>
        if sid ≠ [] then some (dictInsert d "source_id" (MetaVal.str sid)) else some d
      | none => some d

/-- The local loop state of `chunk_text`: emitted chunks, the accumulator
`current_chunk`, `current_tokens`, and `char_position`. -/
structure St where
  chunks : List Chunk
  cur : List (List Char)
  tokens : Nat
  pos : Nat
deriving DecidableEq, Repr

/-- The overlap seed computed when a chunk is closed:
`chunk_text[-self.chunk_overlap * 4:] if self.chunk_overlap else ""`. -/
def overlapText (ck : DocumentChunker) (content : List Char) : List Char :=
  if ck.chunk_overlap ≠ 0 then pySliceFrom content (-(ck.chunk_overlap * 4)) else []

/-- Closing the current chunk (the repeated emit-and-reseed block of
`chunk_text`): join the accumulator with `sep`, append a `Chunk` carrying the
running token count and the `{**base_metadata, "chunk_index": len(chunks)}`
metadata, then reseed the accumulator from the overlap tail. -/
def flush (ck : DocumentChunker) (bm : Dict) (sep : List Char) (s : St) : St :=
  let content := joinSep sep s.cur
  let ch : Chunk :=
    ⟨content, s.chunks.length, (s.pos : Int) - content.length, (s.pos : Int), s.tokens,
     dictInsert bm "chunk_index" (MetaVal.nat s.chunks.length)⟩
  let ov := overlapText ck content
  ⟨s.chunks ++ [ch], if ov ≠ [] then [ov] else [], estimate_tokens ov, s.pos⟩

/-- Adding one atomic unit (paragraph with `sep = "\n\n"`, `step = 2`, or
sentence with `sep = " "`, `step = 1`): flush first when the unit would
overflow the budget and the accumulator is non-empty, then append the unit
and advance the cursor. -/
def addUnit (ck : DocumentChunker) (bm : Dict) (sep : List Char) (step : Nat)
    (s : St) (u : List Char) : St :=
  let ut := estimate_tokens u
  let s1 := if (s.tokens : Int) + ut > ck.chunk_size ∧ s.cur ≠ [] then flush ck bm sep s else s
  ⟨s1.chunks, s1.cur ++ [u], s1.tokens + ut, s1.pos + u.length + step⟩

/-- The body of the paragraph loop of `chunk_text`: a paragraph over the
budget falls back to sentence units, otherwise it is itself the unit. -/
def processPara (ck : DocumentChunker) (bm : Dict) (s : St) (para : List Char) : St :=
  if (estimate_tokens para : Int) > ck.chunk_size then
    (split_by_sentences para).foldl (addUnit ck bm [' '] 1) s
  else
    addUnit ck bm ['\n', '\n'] 2 s para

/-- `DocumentChunker.chunk_text`. -/
def DocumentChunker.chunk_text (ck : DocumentChunker) (text : List Char)
    (source_id : Option (List Char)) (metadata : Option Dict) : List Chunk :=
  if pyStrip text = [] then []
  else
    let bm := mkBaseMetadata metadata source_id
    let s := (split_by_paragraphs text).foldl (processPara ck bm) ⟨[], [], 0, 0⟩
    if s.cur ≠ [] then (flush ck bm ['\n', '\n'] s).chunks else s.chunks

/-- Whether the lookahead `(?=^#{1,6}\s+)` matches at a line start: one to six
`#` characters (the full run, by backtracking) followed by a whitespace
character. -/
def isHeadingStart (l : List Char) : Bool :=
  let r := (l.takeWhile (· = '#')).length
  decide (1 ≤ r) && decide (r ≤ 6) &&
    (match l.drop r with
     | c :: _ => isSpace c
     | [] => false)

/-- Scanner for `re.split(r'(?=^#{1,6}\s+)', text, flags=re.MULTILINE)` past
position 0: a new section begins after every newline that is followed by a
heading start (the newline stays with the previous section). -/
def splitSectionsAux (acc : List Char) : List Char → List (List Char)
  | [] => [acc.reverse]
  | c :: rest =>
    if c = '\n' && isHeadingStart rest then
      (acc.reverse ++ ['\n']) :: splitSectionsAux [] rest
    else
      splitSectionsAux (c :: acc) rest

/-- `re.split(r'(?=^#{1,6}\s+)', text, flags=re.MULTILINE)`: when the text
itself starts with a heading the split also fires at position 0 and yields a
leading empty piece, exactly as `re.split` does for a zero-width match there. -/
def splitSections (text : List Char) : List (List Char) :=
  if isHeadingStart text then [] :: splitSectionsAux [] text
  else splitSectionsAux [] text

/-- `re.match(r'^(#{1,6})\s+(.+)$', section, re.MULTILINE)`, returning
`(len(group(1)), group(2))`.  Backtracking makes only the full `#` run usable
(a shorter run is followed by another `#`, never by `\s`); the greedy `\s+`
then gives characters back one at a time until `(.+)` — any characters except
newline — can match, which needs a non-newline character right after the
retained whitespace. -/
def matchHeader (sec : List Char) : Option (Nat × List Char) :=
  let r := (sec.takeWhile (· = '#')).length
  if 1 ≤ r ∧ r ≤ 6 then
    let rest := sec.drop r
    let w := (rest.takeWhile isSpace).length
    if w = 0 then none
    else if rest.drop w ≠ [] then some (r, (rest.drop w).takeWhile (· ≠ '\n'))
    else
      match ((List.range w).filter
          (fun j => decide (1 ≤ j) && decide (rest.getD j ' ' ≠ '\n'))).getLast? with
      | some j => some (r, (rest.drop j).takeWhile (· ≠ '\n'))
      | none => none
  else none

/-- `current_headers[level] = header_text` followed by deletion of every key
strictly deeper than `level`. -/
def updateHeaders (hs : List (Nat × List Char)) (level : Nat) (text : List Char) :
    List (Nat × List Char) :=
  (if (hs.map Prod.fst).contains level then
     hs.map (fun p => if p.1 = level then (level, text) else p)
   else hs ++ [(level, text)]).filter (fun p => decide (p.1 ≤ level))

/-- The local loop state of `chunk_markdown`: emitted chunks, `current_headers`,
and `char_position`. -/
structure MdSt where
  chunks : List Chunk
  headers : List (Nat × List Char)
  pos : Nat
deriving DecidableEq, Repr

/-- The renumbering loop over the sub-chunks of an oversized section:
`sub_chunk.index = len(chunks)`, both offsets shifted by the section start,
then appended.  The metadata (in particular its `chunk_index` entry) is not
touched. -/
def renumber (pos : Nat) (chunks : List Chunk) (subs : List Chunk) : List Chunk :=
  subs.foldl
    (fun acc sc =>
      acc ++ [{ sc with
                index := acc.length,
                start_char := sc.start_char + pos,
                end_char := sc.end_char + pos }])
    chunks

/-- The body of the section loop of `chunk_markdown`: skip whitespace-only
sections (without advancing the cursor, matching the `continue`), update the
header map if the section opens with a heading, then either emit the whole
section as one chunk or delegate to `chunk_text` and renumber. -/
def processSection (ck : DocumentChunker) (bm : Dict) (source_id : Option (List Char))
    (s : MdSt) (sec : List Char) : MdSt :=
  if pyStrip sec = [] then s
  else
    let hs := match matchHeader sec with
              | some (lv, tx) => updateHeaders s.headers lv tx
              | none => s.headers
    let stoks := estimate_tokens sec
    if (stoks : Int) ≤ ck.chunk_size then
      ⟨s.chunks ++
        [⟨sec, s.chunks.length, (s.pos : Int), (s.pos : Int) + sec.length, stoks,
          dictInsert (dictInsert bm "chunk_index" (MetaVal.nat s.chunks.length))
            "headers" (MetaVal.headers hs)⟩],
       hs, s.pos + sec.length⟩
    else
      let subs := ck.chunk_text sec source_id
        (some (dictInsert bm "headers" (MetaVal.headers hs)))
      ⟨renumber s.pos s.chunks subs, hs, s.pos + sec.length⟩

/-- `DocumentChunker.chunk_markdown`. -/
def DocumentChunker.chunk_markdown (ck : DocumentChunker) (markdown_text : List Char)
    (source_id : Option (List Char)) (metadata : Option Dict) : List Chunk :=
  if pyStrip markdown_text = [] then []
  else
    let bm := mkBaseMetadata metadata source_id
    ((splitSections markdown_text).foldl (processSection ck bm source_id) ⟨[], [], 0⟩).chunks

/-- Whether some line of `l` begins past position 0 with a markdown heading,
i.e. whether the section split can fire after a newline. -/
def hasNLHeading : List Char → Bool
  | [] => false
  | c :: rest => (c = '\n' && isHeadingStart rest) || hasNLHeading rest

/-- Whether `l` contains a markdown heading line at all (at position 0 or
after any newline): exactly the condition under which
`re.split(r'(?=^#{1,6}\s+)', ...)` produces more than one piece. -/
def hasHeadingLine (l : List Char) : Bool :=
  isHeadingStart l || hasNLHeading l

/-! ### Ghost-annotated `chunk_text`

`chunkTextA` runs the very same loop as `chunk_text` (its `.st` component is
definitionally the `St` produced by the plain functions) while additionally
tracking, for the chunk currently being accumulated,

* `okcur`: whether the accumulator was seeded empty (no overlap tail) and
  every atomic unit appended so far has an individual token estimate within
  `chunk_size` — i.e. whether the chunk is "formed purely from atomic units
  each individually ≤ chunk_size";
* `lastu`: the token estimate of the unit appended last;

and records the pair alongside each emitted chunk (`annots`). -/

/-- Annotated loop state: the plain state plus the purity flag, the last
unit's estimate, and one `(pure, last)` record per emitted chunk. -/
structure StA where
  st : St
  okcur : Bool
  lastu : Nat
  annots : List (Bool × Nat)

/-- Annotated `flush`: emit the pending annotation and restart the purity
flag according to whether the new accumulator seed (the overlap tail) is
empty. -/
def flushA (ck : DocumentChunker) (bm : Dict) (sep : List Char) (s : StA) : StA :=
  { st := flush ck bm sep s.st,
    okcur := decide (overlapText ck (joinSep sep s.st.cur) = []),
    lastu := s.lastu,
    annots := s.annots ++ [(s.okcur, s.lastu)] }

/-- Annotated `addUnit`. -/
def addUnitA (ck : DocumentChunker) (bm : Dict) (sep : List Char) (step : Nat)
    (s : StA) (u : List Char) : StA :=
  let ut := estimate_tokens u
  let s1 := if (s.st.tokens : Int) + ut > ck.chunk_size ∧ s.st.cur ≠ [] then
      flushA ck bm sep s else s
  { st := ⟨s1.st.chunks, s1.st.cur ++ [u], s1.st.tokens + ut, s1.st.pos + u.length + step⟩,
    okcur := s1.okcur && decide ((ut : Int) ≤ ck.chunk_size),
    lastu := ut,
    annots := s1.annots }

/-- Annotated `processPara`. -/
def processParaA (ck : DocumentChunker) (bm : Dict) (s : StA) (para : List Char) : StA :=
  if (estimate_tokens para : Int) > ck.chunk_size then
    (split_by_sentences para).foldl (addUnitA ck bm [' '] 1) s
  else
    addUnitA ck bm ['\n', '\n'] 2 s para

/-- Annotated `chunk_text`: the emitted chunks of the plain run, each paired
with its `(pure, last-unit-estimate)` annotation. -/
def chunkTextA (ck : DocumentChunker) (text : List Char)
    (source_id : Option (List Char)) (metadata : Option Dict) :
    List (Chunk × Bool × Nat) :=
  if pyStrip text = [] then []
  else
    let bm := mkBaseMetadata metadata source_id
    let s := (split_by_paragraphs text).foldl (processParaA ck bm) ⟨⟨[], [], 0, 0⟩, true, 0, []⟩
    let s' := if s.st.cur ≠ [] then flushA ck bm ['\n', '\n'] s else s
    s'.st.chunks.zip s'.annots

/-! ### Invariant predicates -/

/-- Every chunk's reported token count is at most the estimator applied to
its stored content. -/
def TokOk (l : List Chunk) : Prop :=
  ∀ c ∈ l, c.token_count ≤ estimate_tokens c.content

/-- Every chunk's offsets span exactly the length of its content. -/
def SpanOk (l : List Chunk) : Prop :=
  ∀ c ∈ l, c.end_char - c.start_char = (c.content.length : Int)

/-- The chunk at position `i` carries index `i`. -/
def IdxOk (l : List Chunk) : Prop :=
  ∀ (i : Nat) (c : Chunk), l[i]? = some c → c.index = i

/-- Every chunk's metadata is the base metadata extended at `"chunk_index"`. -/
def MetaShape (bm : Dict) (l : List Chunk) : Prop :=
  ∀ c ∈ l, ∃ n, c.metadata = dictInsert bm "chunk_index" (MetaVal.nat n)

/-- Every chunk's metadata carries a `"headers"` mapping. -/
def HdrOk (l : List Chunk) : Prop :=
  ∀ c ∈ l, ∃ hs, dictGet? c.metadata "headers" = some (MetaVal.headers hs)

/-- The loop invariant of `chunk_text`: the running token count is the sum of
the accumulated parts' estimates, and every emitted chunk satisfies the three
per-chunk invariants. -/
def StInv (s : St) : Prop :=
  s.tokens = (s.cur.map estimate_tokens).sum ∧
  TokOk s.chunks ∧ SpanOk s.chunks ∧ IdxOk s.chunks

/-- The annotated loop invariant: the purity flag really bounds the running
token count, annotations and chunks stay in lockstep, and every recorded
annotation certifies the soft-cap bound for its chunk. -/
def AInv (ck : DocumentChunker) (s : StA) : Prop :=
  s.st.tokens = (s.st.cur.map estimate_tokens).sum ∧
  (s.okcur = true → s.st.cur ≠ [] → (s.st.tokens : Int) ≤ ck.chunk_size) ∧
  s.annots.length = s.st.chunks.length ∧
  ∀ p ∈ s.st.chunks.zip s.annots, p.2.1 = true →
    (p.1.token_count : Int) ≤ ck.chunk_size + p.2.2

/-! ## Invariant infrastructure -/

/-- Fold preservation with membership information. -/
theorem foldl_preserve {α β : Type} (P : α → Prop) (f : α → β → α) (l : List β)
    (h : ∀ s b, b ∈ l → P s → P (f s b)) : ∀ s : α, P s → P (l.foldl f s) := by
  induction l with
  | nil => intro s hs; exact hs
  | cons x xs ih =>
    intro s hs
    exact ih (fun s b hb => h s b (List.mem_cons_of_mem _ hb)) (f s x)
      (h s x (List.mem_cons_self _ _) hs)

theorem tokOk_append {l : List Chunk} {c : Chunk}
    (hl : TokOk l) (hc : c.token_count ≤ estimate_tokens c.content) :
    TokOk (l ++ [c]) := by
  intro x hx
  rcases List.mem_append.1 hx with h | h
  · exact hl x h
  · rcases List.mem_singleton.1 h with rfl; exact hc

theorem spanOk_append {l : List Chunk} {c : Chunk}
    (hl : SpanOk l) (hc : c.end_char - c.start_char = (c.content.length : Int)) :
    SpanOk (l ++ [c]) := by
  intro x hx
  rcases List.mem_append.1 hx with h | h
  · exact hl x h
  · rcases List.mem_singleton.1 h with rfl; exact hc

theorem idxOk_append {l : List Chunk} {c : Chunk}
    (hl : IdxOk l) (hc : c.index = l.length) : IdxOk (l ++ [c]) := by
  intro i x hx
  rw [List.getElem?_append] at hx
  by_cases hi : i < l.length
  · rw [if_pos hi] at hx
    exact hl i x hx
  · rw [if_neg hi] at hx
    rcases hj : i - l.length with _ | n
    · rw [hj] at hx
      simp at hx
      subst hx
      omega
    · rw [hj] at hx
      simp at hx

/-- Sum of the per-part estimates never exceeds the estimate of the joined
text: the join only adds separator characters and `⌊·/4⌋` is superadditive. -/
theorem sum_estimate_le_join (sep : List Char) (parts : List (List Char)) :
    (parts.map estimate_tokens).sum ≤ estimate_tokens (joinSep sep parts) := by
  induction parts with
  | nil => simp [joinSep, estimate_tokens]
  | cons x xs ih =>
    cases xs with
    | nil => simp [joinSep]
    | cons y ys =>
      simp only [joinSep, List.map_cons, List.sum_cons] at ih ⊢
      have h1 : estimate_tokens x + (estimate_tokens y + (ys.map estimate_tokens).sum)
          ≤ estimate_tokens x + estimate_tokens (joinSep sep (y :: ys)) :=
        Nat.add_le_add_left ih _
      refine h1.trans ?_
      unfold estimate_tokens
      rw [List.length_append, List.length_append]
      have h2 : x.length / 4 + (joinSep sep (y :: ys)).length / 4
          ≤ (x.length + (joinSep sep (y :: ys)).length) / 4 :=
        Nat.add_div_le_add_div _ _ _
      refine h2.trans (Nat.div_le_div_right ?_)
      omega

theorem stInv_flush (ck : DocumentChunker) (bm : Dict) (sep : List Char) (s : St)
    (h : StInv s) : StInv (flush ck bm sep s) := by
  obtain ⟨htok, hT, hS, hI⟩ := h
  refine ⟨?_, ?_, ?_, ?_⟩
  · show estimate_tokens (overlapText ck (joinSep sep s.cur)) =
      (((if overlapText ck (joinSep sep s.cur) ≠ [] then
          [overlapText ck (joinSep sep s.cur)] else []).map estimate_tokens).sum)
    split
    · simp
    · next hov =>
      simp only [ne_eq, Decidable.not_not] at hov
      simp [hov, estimate_tokens]
  · exact tokOk_append hT (by rw [htok]; exact sum_estimate_le_join sep s.cur)
  · exact spanOk_append hS (by push_cast; ring)
  · exact idxOk_append hI rfl

theorem stInv_addUnit (ck : DocumentChunker) (bm : Dict) (sep : List Char) (step : Nat)
    (s : St) (u : List Char) (h : StInv s) : StInv (addUnit ck bm sep step s u) := by
  unfold addUnit
  have h1 : StInv (if (s.tokens : Int) + (estimate_tokens u : Int) > ck.chunk_size ∧ s.cur ≠ []
      then flush ck bm sep s else s) := by
    split
    · exact stInv_flush ck bm sep s h
    · exact h
  obtain ⟨htok, hT, hS, hI⟩ := h1
  exact ⟨by simp [htok], hT, hS, hI⟩

theorem stInv_processPara (ck : DocumentChunker) (bm : Dict) (s : St) (para : List Char)
    (h : StInv s) : StInv (processPara ck bm s para) := by
  unfold processPara
  split
  · exact foldl_preserve StInv _ _
      (fun s' u _ h' => stInv_addUnit ck bm [' '] 1 s' u h') s h
  · exact stInv_addUnit ck bm ['\n', '\n'] 2 s para h

/-- All three per-chunk invariants hold for the output of `chunk_text`. -/
theorem chunk_text_invariants (ck : DocumentChunker) (text : List Char)
    (source_id : Option (List Char)) (metadata : Option Dict) :
    TokOk (ck.chunk_text text source_id metadata) ∧
    SpanOk (ck.chunk_text text source_id metadata) ∧
    IdxOk (ck.chunk_text text source_id metadata) := by
  unfold DocumentChunker.chunk_text
  split
  · exact ⟨fun c hc => absurd hc (List.not_mem_nil c),
      fun c hc => absurd hc (List.not_mem_nil c),
      fun i c hc => by simp at hc⟩
  · have h0 : StInv ⟨[], [], 0, 0⟩ :=
      ⟨rfl, fun c hc => absurd hc (List.not_mem_nil c),
        fun c hc => absurd hc (List.not_mem_nil c), fun i c hc => by simp at hc⟩
    have h1 : StInv ((split_by_paragraphs text).foldl
        (processPara ck (mkBaseMetadata metadata source_id)) ⟨[], [], 0, 0⟩) :=
      foldl_preserve StInv _ _
        (fun s' p _ h' => stInv_processPara ck (mkBaseMetadata metadata source_id) s' p h') _ h0
    dsimp only
    split
    · obtain ⟨_, hT, hS, hI⟩ := stInv_flush ck (mkBaseMetadata metadata source_id) ['\n', '\n'] _ h1
      exact ⟨hT, hS, hI⟩
    · obtain ⟨_, hT, hS, hI⟩ := h1
      exact ⟨hT, hS, hI⟩

/-- Renumbering preserves the per-chunk invariants: indices are reassigned to
the running position and both offsets are shifted by the same amount. -/
theorem renumber_invariants (pos : Nat) (chunks subs : List Chunk)
    (h : TokOk chunks ∧ SpanOk chunks ∧ IdxOk chunks)
    (hsub : TokOk subs ∧ SpanOk subs) :
    TokOk (renumber pos chunks subs) ∧ SpanOk (renumber pos chunks subs) ∧
      IdxOk (renumber pos chunks subs) := by
  unfold renumber
  refine foldl_preserve (fun l => TokOk l ∧ SpanOk l ∧ IdxOk l) _ subs ?_ chunks h
  rintro acc sc hsc ⟨hT, hS, hI⟩
  refine ⟨tokOk_append hT (hsub.1 sc hsc), spanOk_append hS ?_, idxOk_append hI rfl⟩
  have := hsub.2 sc hsc
  dsimp only
  omega

theorem mdInv_processSection (ck : DocumentChunker) (bm : Dict)
    (source_id : Option (List Char)) (s : MdSt) (sec : List Char)
    (h : TokOk s.chunks ∧ SpanOk s.chunks ∧ IdxOk s.chunks) :
    TokOk (processSection ck bm source_id s sec).chunks ∧
    SpanOk (processSection ck bm source_id s sec).chunks ∧
    IdxOk (processSection ck bm source_id s sec).chunks := by
  obtain ⟨hT, hS, hI⟩ := h
  unfold processSection
  split
  · exact ⟨hT, hS, hI⟩
  · dsimp only
    split
    · exact ⟨tokOk_append hT (Nat.le_refl _), spanOk_append hS (by push_cast; ring),
        idxOk_append hI rfl⟩
    · have hsub := chunk_text_invariants ck sec source_id
        (some (dictInsert bm "headers"
          (MetaVal.headers
            (match matchHeader sec with
             | some (lv, tx) => updateHeaders s.headers lv tx
             | none => s.headers))))
      exact renumber_invariants s.pos s.chunks _ ⟨hT, hS, hI⟩ ⟨hsub.1, hsub.2.1⟩

/-- All three per-chunk invariants hold for the output of `chunk_markdown`. -/
theorem chunk_markdown_invariants (ck : DocumentChunker) (markdown_text : List Char)
    (source_id : Option (List Char)) (metadata : Option Dict) :
    TokOk (ck.chunk_markdown markdown_text source_id metadata) ∧
    SpanOk (ck.chunk_markdown markdown_text source_id metadata) ∧
    IdxOk (ck.chunk_markdown markdown_text source_id metadata) := by
  unfold DocumentChunker.chunk_markdown
  split
  · exact ⟨fun c hc => absurd hc (List.not_mem_nil c),
      fun c hc => absurd hc (List.not_mem_nil c),
      fun i c hc => by simp at hc⟩
  · dsimp only
    refine foldl_preserve
      (fun s : MdSt => TokOk s.chunks ∧ SpanOk s.chunks ∧ IdxOk s.chunks) _ _ ?_ _ ?_
    · intro s' sec _ h'
      exact mdInv_processSection ck (mkBaseMetadata metadata source_id) source_id s' sec h'
    · exact ⟨fun c hc => absurd hc (List.not_mem_nil c),
        fun c hc => absurd hc (List.not_mem_nil c),
        fun i c hc => by simp at hc⟩

/-! ## Dictionary lookup lemmas -/

theorem dictGet?_insert_self (d : Dict) (k : String) (v : MetaVal) :
    dictGet? (dictInsert d k v) k = some v := by
  unfold dictInsert dictGet?
  split
  · next hc =>
    have hex : ∃ q, q ∈ d ∧ (fun p : String × MetaVal => decide (p.1 = k)) q := by
      simp only [List.contains_iff_exists_mem_beq, List.mem_map] at hc
      obtain ⟨a, ⟨q, hq, rfl⟩, hbeq⟩ := hc
      have hkq : k = q.1 := by simpa using hbeq
      exact ⟨q, hq, by simp [hkq]⟩
    obtain ⟨q0, hq0⟩ := Option.isSome_iff_exists.1 (List.find?_isSome.2 hex)
    rw [List.find?_map]
    have hcomp : ((fun p : String × MetaVal => decide (p.1 = k)) ∘
        (fun p : String × MetaVal => if p.1 = k then (k, v) else p)) =
        (fun p : String × MetaVal => decide (p.1 = k)) := by
      funext q
      by_cases hq : q.1 = k <;> simp [Function.comp, hq]
    rw [hcomp, hq0]
    have hk0 : q0.1 = k := by simpa using List.find?_some hq0
    simp [hk0]
  · rw [List.find?_append]
    next hc =>
    have hnone : d.find? (fun p : String × MetaVal => decide (p.1 = k)) = none := by
      rw [List.find?_eq_none]
      intro q hq
      simp only [decide_eq_true_eq]
      intro hqk
      exact hc (by
        simp only [List.contains_iff_exists_mem_beq, List.mem_map]
        exact ⟨k, ⟨q, hq, hqk⟩, by simp⟩)
    rw [hnone]
    simp

theorem dictGet?_insert_ne (d : Dict) (k k' : String) (v : MetaVal) (hk : k' ≠ k) :
    dictGet? (dictInsert d k' v) k = dictGet? d k := by
  unfold dictInsert dictGet?
  split
  · rw [List.find?_map]
    have hcomp : ((fun p : String × MetaVal => decide (p.1 = k)) ∘
        (fun p : String × MetaVal => if p.1 = k' then (k', v) else p)) =
        (fun p : String × MetaVal => decide (p.1 = k)) := by
      funext q
      by_cases hq : q.1 = k'
      · have h1 : ¬ (k' = k) := hk
        simp [Function.comp, hq, h1]
      · simp [Function.comp, hq]
    rw [hcomp]
    cases hfind : d.find? (fun p : String × MetaVal => decide (p.1 = k)) with
    | none => simp
    | some q0 =>
      have hk0 : q0.1 = k := by simpa using List.find?_some hfind
      have : ¬ q0.1 = k' := by rw [hk0]; exact fun h => hk h.symm
      simp [this]
  · rw [List.find?_append]
    cases hfind : d.find? (fun p : String × MetaVal => decide (p.1 = k)) with
    | none => simp [List.find?, hk]
    | some q0 => simp

/-! ## Metadata shape -/

theorem metaShape_flush (ck : DocumentChunker) (bm : Dict) (sep : List Char) (s : St)
    (h : MetaShape bm s.chunks) : MetaShape bm (flush ck bm sep s).chunks := by
  intro c hc
  rcases List.mem_append.1 hc with h1 | h1
  · exact h c h1
  · rcases List.mem_singleton.1 h1 with rfl
    exact ⟨s.chunks.length, rfl⟩

theorem metaShape_addUnit (ck : DocumentChunker) (bm : Dict) (sep : List Char) (step : Nat)
    (s : St) (u : List Char) (h : MetaShape bm s.chunks) :
    MetaShape bm (addUnit ck bm sep step s u).chunks := by
  unfold addUnit
  dsimp only
  split
  · exact metaShape_flush ck bm sep s h
  · exact h

theorem metaShape_processPara (ck : DocumentChunker) (bm : Dict) (s : St) (para : List Char)
    (h : MetaShape bm s.chunks) : MetaShape bm (processPara ck bm s para).chunks := by
  unfold processPara
  split
  · exact foldl_preserve (fun s' : St => MetaShape bm s'.chunks) _ _
      (fun s' u _ h' => metaShape_addUnit ck bm [' '] 1 s' u h') s h
  · exact metaShape_addUnit ck bm ['\n', '\n'] 2 s para h

/-- Every chunk emitted by `chunk_text` has metadata
`{**base_metadata, "chunk_index": n}` for some `n`. -/
theorem chunk_text_metaShape (ck : DocumentChunker) (text : List Char)
    (source_id : Option (List Char)) (metadata : Option Dict) :
    MetaShape (mkBaseMetadata metadata source_id) (ck.chunk_text text source_id metadata) := by
  unfold DocumentChunker.chunk_text
  split
  · exact fun c hc => absurd hc (List.not_mem_nil c)
  · dsimp only
    have h1 : MetaShape (mkBaseMetadata metadata source_id)
        ((split_by_paragraphs text).foldl
          (processPara ck (mkBaseMetadata metadata source_id)) ⟨[], [], 0, 0⟩).chunks :=
      foldl_preserve (fun s' : St => MetaShape (mkBaseMetadata metadata source_id) s'.chunks) _ _
        (fun s' p _ h' => metaShape_processPara ck _ s' p h') _
        (fun c hc => absurd hc (List.not_mem_nil c))
    split
    · exact metaShape_flush ck _ ['\n', '\n'] _ h1
    · exact h1

/-- Looking up any key other than `"source_id"` in the base metadata sees
through the prologue. -/
theorem dictGet?_mkBaseMetadata (metadata : Option Dict) (source_id : Option (List Char))
    (k : String) (hk : k ≠ "source_id") :
    dictGet? (mkBaseMetadata metadata source_id) k = dictGet? (metadata.getD []) k := by
  unfold mkBaseMetadata
  cases source_id with
  | none => rfl
  | some sid =>
    dsimp only
    split
    · exact dictGet?_insert_ne _ _ _ _ (Ne.symm hk)
    · rfl

theorem hdrOk_renumber (pos : Nat) (chunks subs : List Chunk)
    (h : HdrOk chunks) (hsub : HdrOk subs) : HdrOk (renumber pos chunks subs) := by
  unfold renumber
  refine foldl_preserve HdrOk _ subs ?_ chunks h
  rintro acc sc hsc hacc c hc
  rcases List.mem_append.1 hc with h1 | h1
  · exact hacc c h1
  · rcases List.mem_singleton.1 h1 with rfl
    exact hsub sc hsc

theorem hdrOk_processSection (ck : DocumentChunker) (metadata : Option Dict)
    (source_id : Option (List Char)) (s : MdSt) (sec : List Char)
    (h : HdrOk s.chunks) :
    HdrOk (processSection ck (mkBaseMetadata metadata source_id) source_id s sec).chunks := by
  unfold processSection
  split
  · exact h
  · dsimp only
    split
    · intro c hc
      rcases List.mem_append.1 hc with h1 | h1
      · exact h c h1
      · rcases List.mem_singleton.1 h1 with rfl
        exact ⟨_, dictGet?_insert_self _ _ _⟩
    · refine hdrOk_renumber _ _ _ h ?_
      intro sc hsc
      obtain ⟨n, hn⟩ := chunk_text_metaShape ck sec source_id
        (some (dictInsert (mkBaseMetadata metadata source_id) "headers"
          (MetaVal.headers
            (match matchHeader sec with
             | some (lv, tx) => updateHeaders s.headers lv tx
             | none => s.headers)))) sc hsc
      refine ⟨(match matchHeader sec with
               | some (lv, tx) => updateHeaders s.headers lv tx
               | none => s.headers), ?_⟩
      rw [hn, dictGet?_insert_ne _ _ _ _ (by decide),
        dictGet?_mkBaseMetadata _ _ _ (by decide)]
      exact dictGet?_insert_self _ _ _

/-- Every chunk emitted by `chunk_markdown` carries a `"headers"` mapping in
its metadata. -/
theorem chunk_markdown_hdrOk (ck : DocumentChunker) (markdown_text : List Char)
    (source_id : Option (List Char)) (metadata : Option Dict) :
    HdrOk (ck.chunk_markdown markdown_text source_id metadata) := by
  unfold DocumentChunker.chunk_markdown
  split
  · exact fun c hc => absurd hc (List.not_mem_nil c)
  · dsimp only
    refine foldl_preserve (fun s : MdSt => HdrOk s.chunks) _ _ ?_ _
      (fun c hc => absurd hc (List.not_mem_nil c))
    intro s' sec _ h'
    exact hdrOk_processSection ck metadata source_id s' sec h'

/-! ## Soundness of the annotated run -/

theorem st_flushA (ck : DocumentChunker) (bm : Dict) (sep : List Char) (s : StA) :
    (flushA ck bm sep s).st = flush ck bm sep s.st := rfl

theorem st_addUnitA (ck : DocumentChunker) (bm : Dict) (sep : List Char) (step : Nat)
    (s : StA) (u : List Char) :
    (addUnitA ck bm sep step s u).st = addUnit ck bm sep step s.st u := by
  unfold addUnitA addUnit
  by_cases hc : (s.st.tokens : Int) + (estimate_tokens u : Int) > ck.chunk_size ∧ s.st.cur ≠ []
  · simp only [if_pos hc, st_flushA]
  · simp only [if_neg hc]

theorem st_processParaA (ck : DocumentChunker) (bm : Dict) (s : StA) (para : List Char) :
    (processParaA ck bm s para).st = processPara ck bm s.st para := by
  unfold processParaA processPara
  split
  · induction split_by_sentences para generalizing s with
    | nil => rfl
    | cons u us ih =>
      simp only [List.foldl_cons]
      rw [ih (addUnitA ck bm [' '] 1 s u), st_addUnitA]
  · exact st_addUnitA ck bm ['\n', '\n'] 2 s para

theorem st_foldParaA (ck : DocumentChunker) (bm : Dict) (l : List (List Char)) (s : StA) :
    (l.foldl (processParaA ck bm) s).st = l.foldl (processPara ck bm) s.st := by
  induction l generalizing s with
  | nil => rfl
  | cons p ps ih =>
    simp only [List.foldl_cons]
    rw [ih (processParaA ck bm s p), st_processParaA]

theorem estimate_tokens_nil : estimate_tokens [] = 0 := rfl

theorem zip_append_singleton {α β : Type} (l1 : List α) (l2 : List β) (a : α) (b : β)
    (h : l1.length = l2.length) : (l1 ++ [a]).zip (l2 ++ [b]) = l1.zip l2 ++ [(a, b)] := by
  induction l1 generalizing l2 with
  | nil =>
    cases l2 with
    | nil => rfl
    | cons y ys => simp at h
  | cons x xs ih =>
    cases l2 with
    | nil => simp at h
    | cons y ys =>
      simp only [List.length_cons, Nat.add_right_cancel_iff] at h
      simp [List.zip_cons_cons, ih ys h]

theorem aInv_flushA (ck : DocumentChunker) (bm : Dict) (sep : List Char) (s : StA)
    (hcur : s.st.cur ≠ []) (h : AInv ck s) : AInv ck (flushA ck bm sep s) := by
  obtain ⟨h1, h2, h3, h4⟩ := h
  refine ⟨?_, ?_, ?_, ?_⟩
  · show estimate_tokens (overlapText ck (joinSep sep s.st.cur)) =
      (((if overlapText ck (joinSep sep s.st.cur) ≠ [] then
          [overlapText ck (joinSep sep s.st.cur)] else []).map estimate_tokens).sum)
    split
    · simp
    · next hov =>
      simp only [ne_eq, Decidable.not_not] at hov
      simp [hov, estimate_tokens]
  · intro hok hcur'
    exfalso
    have hov : overlapText ck (joinSep sep s.st.cur) = [] := by
      simpa [flushA] using hok
    apply hcur'
    show (if overlapText ck (joinSep sep s.st.cur) ≠ [] then
        [overlapText ck (joinSep sep s.st.cur)] else []) = []
    simp [hov]
  · have e1 : (flushA ck bm sep s).annots.length = s.annots.length + 1 := by
      simp [flushA]
    have e2 : (flushA ck bm sep s).st.chunks.length = s.st.chunks.length + 1 := by
      simp [flushA, flush]
    omega
  · have e3 : (flushA ck bm sep s).st.chunks.zip (flushA ck bm sep s).annots =
        s.st.chunks.zip s.annots ++
          [(⟨joinSep sep s.st.cur, s.st.chunks.length,
             (s.st.pos : Int) - (joinSep sep s.st.cur).length, (s.st.pos : Int), s.st.tokens,
             dictInsert bm "chunk_index" (MetaVal.nat s.st.chunks.length)⟩,
            (s.okcur, s.lastu))] := by
      show ((s.st.chunks ++ _).zip (s.annots ++ _) = _)
      rw [zip_append_singleton _ _ _ _ h3.symm]
    rw [e3]
    intro p hp hok
    rcases List.mem_append.1 hp with hmem | hmem
    · exact h4 p hmem hok
    · rcases List.mem_singleton.1 hmem with rfl
      simp only at hok
      have hb : (s.st.tokens : Int) ≤ ck.chunk_size := h2 hok hcur
      show (s.st.tokens : Int) ≤ ck.chunk_size + (s.lastu : Int)
      have : (0 : Int) ≤ (s.lastu : Int) := Int.natCast_nonneg _
      omega

theorem aInv_addUnitA (ck : DocumentChunker) (bm : Dict) (sep : List Char) (step : Nat)
    (s : StA) (u : List Char) (h : AInv ck s) : AInv ck (addUnitA ck bm sep step s u) := by
  unfold addUnitA
  dsimp only
  set ut := estimate_tokens u with hut
  by_cases hc : (s.st.tokens : Int) + (ut : Int) > ck.chunk_size ∧ s.st.cur ≠ []
  · rw [if_pos hc]
    have hs1 := aInv_flushA ck bm sep s hc.2 h
    obtain ⟨g1, g2, g3, g4⟩ := hs1
    refine ⟨?_, ?_, g3, g4⟩
    · simp [g1]
    · intro hok _
      simp only [Bool.and_eq_true, decide_eq_true_eq] at hok
      obtain ⟨hok1, hle⟩ := hok
      have hov : overlapText ck (joinSep sep s.st.cur) = [] := by
        simpa [flushA] using hok1
      have htok0 : (flushA ck bm sep s).st.tokens = 0 := by
        show estimate_tokens (overlapText ck (joinSep sep s.st.cur)) = 0
        rw [hov]
        rfl
      rw [htok0]
      simpa using hle
  · rw [if_neg hc]
    obtain ⟨h1, h2, h3, h4⟩ := h
    refine ⟨by simp [h1], ?_, h3, h4⟩
    intro hok _
    simp only [Bool.and_eq_true, decide_eq_true_eq] at hok
    obtain ⟨_, hle⟩ := hok
    rcases Decidable.not_and_iff_or_not.mp hc with hng | hemp
    · push_neg at hng
      push_cast
      omega
    · have hnil : s.st.cur = [] := by
        by_contra hne
        exact hemp hne
      have : s.st.tokens = 0 := by rw [h1, hnil]; rfl
      rw [this]
      simpa using hle

theorem aInv_processParaA (ck : DocumentChunker) (bm : Dict) (s : StA) (para : List Char)
    (h : AInv ck s) : AInv ck (processParaA ck bm s para) := by
  unfold processParaA
  split
  · exact foldl_preserve (AInv ck) _ _
      (fun s' u _ h' => aInv_addUnitA ck bm [' '] 1 s' u h') s h
  · exact aInv_addUnitA ck bm ['\n', '\n'] 2 s para h

/-- The annotated run is sound: dropping the annotations gives exactly
`chunk_text`, and every chunk annotated as pure respects the soft cap
`chunk_size + last-unit-estimate`. -/
theorem chunkTextA_sound (ck : DocumentChunker) (text : List Char)
    (source_id : Option (List Char)) (metadata : Option Dict) :
    ck.chunk_text text source_id metadata =
      (chunkTextA ck text source_id metadata).map Prod.fst ∧
    ∀ p ∈ chunkTextA ck text source_id metadata, p.2.1 = true →
      (p.1.token_count : Int) ≤ ck.chunk_size + (p.2.2 : Int) := by
  unfold DocumentChunker.chunk_text chunkTextA
  split
  · exact ⟨rfl, fun p hp => absurd hp (List.not_mem_nil p)⟩
  · dsimp only
    set bm := mkBaseMetadata metadata source_id with hbm
    set sA := (split_by_paragraphs text).foldl (processParaA ck bm)
      ⟨⟨[], [], 0, 0⟩, true, 0, []⟩ with hsA
    have hst : ((split_by_paragraphs text).foldl (processPara ck bm) ⟨[], [], 0, 0⟩) = sA.st :=
      (st_foldParaA ck bm (split_by_paragraphs text) ⟨⟨[], [], 0, 0⟩, true, 0, []⟩).symm
    have hA0 : AInv ck ⟨⟨[], [], 0, 0⟩, true, 0, []⟩ := by
      refine ⟨rfl, ?_, rfl, ?_⟩
      · intro _ hcur
        exact absurd rfl hcur
      · intro p hp
        exact absurd hp (List.not_mem_nil p)
    have hA : AInv ck sA :=
      foldl_preserve (AInv ck) _ _ (fun s' p _ h' => aInv_processParaA ck bm s' p h') _ hA0
    rw [hst]
    by_cases hcur : sA.st.cur ≠ []
    · rw [if_pos hcur, if_pos hcur]
      have hAF := aInv_flushA ck bm ['\n', '\n'] sA hcur hA
      have hlen := hAF.2.2.1
      constructor
      · rw [List.map_fst_zip _ _ (Nat.le_of_eq hlen.symm), st_flushA]
      · exact hAF.2.2.2
    · rw [if_neg hcur, if_neg hcur]
      have hlen := hA.2.2.1
      constructor
      · rw [List.map_fst_zip _ _ (Nat.le_of_eq hlen.symm)]
      · exact hA.2.2.2

/-! ## Headingless markdown -/

theorem splitSectionsAux_no_heading (l : List Char) (hl : hasNLHeading l = false) :
    ∀ acc, splitSectionsAux acc l = [acc.reverse ++ l] := by
  induction l with
  | nil => intro acc; simp [splitSectionsAux]
  | cons c rest ih =>
    intro acc
    simp only [hasNLHeading, Bool.or_eq_false_iff] at hl
    unfold splitSectionsAux
    rw [if_neg (by rw [hl.1]; exact Bool.false_ne_true)]
    rw [ih hl.2 (c :: acc)]
    simp

/-- With no heading line anywhere, the section split returns the whole text
as the single section. -/
theorem splitSections_no_heading (text : List Char) (h : hasHeadingLine text = false) :
    splitSections text = [text] := by
  unfold hasHeadingLine at h
  rw [Bool.or_eq_false_iff] at h
  unfold splitSections
  rw [if_neg (by rw [h.1]; exact Bool.false_ne_true)]
  simpa using splitSectionsAux_no_heading text h.2 []

/-- A section that does not start with a heading has no header match. -/
theorem matchHeader_none (sec : List Char) (h : isHeadingStart sec = false) :
    matchHeader sec = none := by
  unfold isHeadingStart at h
  unfold matchHeader
  by_cases hr : 1 ≤ (sec.takeWhile (· = '#')).length ∧ (sec.takeWhile (· = '#')).length ≤ 6
  · rw [if_pos hr]
    have hw : ((sec.drop (sec.takeWhile (· = '#')).length).takeWhile isSpace).length = 0 := by
      simp only [Bool.and_eq_false_iff, decide_eq_false_iff_not] at h
      rcases h with (h | h) | h
      · exact absurd hr.1 h
      · exact absurd hr.2 h
      · cases hd : sec.drop (sec.takeWhile (· = '#')).length with
        | nil => rfl
        | cons c cs =>
          rw [hd] at h
          simp only at h
          rw [List.takeWhile_cons_of_neg (by rw [h]; exact Bool.false_ne_true)]
          rfl
    rw [if_pos hw]
  · rw [if_neg hr]

theorem renumber_canonical (subs : List Chunk) :
    ∀ acc : List Chunk, (∀ (i : Nat) (c : Chunk), subs[i]? = some c → c.index = acc.length + i) →
    renumber 0 acc subs = acc ++ subs := by
  induction subs with
  | nil => intro acc _; simp [renumber]
  | cons sc rest ih =>
    intro acc h
    have hsc : sc.index = acc.length := by
      have := h 0 sc (by simp)
      omega
    have hrec : (Chunk.mk sc.content acc.length (sc.start_char + ((0 : Nat) : Int))
        (sc.end_char + ((0 : Nat) : Int)) sc.token_count sc.metadata) = sc := by
      cases sc
      simp only at hsc
      simp [Chunk.mk.injEq, hsc]
    unfold renumber
    simp only [List.foldl_cons]
    rw [hrec]
    have h' : ∀ (i : Nat) (c : Chunk), rest[i]? = some c → c.index = (acc ++ [sc]).length + i := by
      intro i c hc
      have := h (i + 1) c (by simpa using hc)
      simp only [List.length_append, List.length_cons, List.length_nil]
      omega
    have := ih (acc ++ [sc]) h'
    unfold renumber at this
    rw [this]
    simp

/-- For a headingless input, `chunk_markdown` treats the whole text as one
section: one verbatim chunk when the estimate fits the budget, exactly the
`chunk_text` output (with the empty `"headers"` mapping merged into the base
metadata) when it does not. -/
theorem chunk_markdown_headingless (ck : DocumentChunker) (text : List Char)
    (source_id : Option (List Char)) (metadata : Option Dict)
    (hh : hasHeadingLine text = false) (hs : pyStrip text ≠ []) :
    ((estimate_tokens text : Int) ≤ ck.chunk_size →
      ck.chunk_markdown text source_id metadata =
        [⟨text, 0, (0 : Int), (text.length : Int), estimate_tokens text,
          dictInsert (dictInsert (mkBaseMetadata metadata source_id)
            "chunk_index" (MetaVal.nat 0)) "headers" (MetaVal.headers [])⟩]) ∧
    (¬ (estimate_tokens text : Int) ≤ ck.chunk_size →
      ck.chunk_markdown text source_id metadata =
        ck.chunk_text text source_id
          (some (dictInsert (mkBaseMetadata metadata source_id)
            "headers" (MetaVal.headers [])))) := by
  have hmh : matchHeader text = none := by
    apply matchHeader_none
    unfold hasHeadingLine at hh
    exact (Bool.or_eq_false_iff.1 hh).1
  unfold DocumentChunker.chunk_markdown
  rw [if_neg hs, splitSections_no_heading text hh]
  simp only [List.foldl_cons, List.foldl_nil]
  unfold processSection
  rw [if_neg hs, hmh]
  dsimp only
  constructor
  · intro hle
    rw [if_pos hle]
    simp
  · intro hgt
    rw [if_neg hgt]
    dsimp only
    apply renumber_canonical
    intro i c hc
    have := (chunk_text_invariants ck text source_id
      (some (dictInsert (mkBaseMetadata metadata source_id)
        "headers" (MetaVal.headers [])))).2.2 i c hc
    simpa using this

/-! ## Claim theorems -/

/-- Claim C1, counterexample: `token_count` does not always equal
`len(content) // 4`.  With the default configuration, the input
`"aaa\n\nbbb"` yields a single chunk whose content is the 8-character string
`"aaa\n\nbbb"` (estimator value 2) but whose stored `token_count` is 0 (the
sum of the two paragraphs' individual estimates `3 // 4 = 0`): the running
count never sees the `"\n\n"` join separators. -/
theorem token_count_drift :
    ((DocumentChunker.make defaultSettings none none).chunk_text
        ("aaa\n\nbbb".toList) none none).map
      (fun c => (c.token_count, estimate_tokens c.content)) = [(0, 2)] := by
  decide

/-- Claim C1, amended: for every chunk produced by `chunk_text` or
`chunk_markdown`, the stored `token_count` never exceeds the token estimator
applied to the stored content (`token_count ≤ len(content) // 4`); it is the
sum of the accumulated units' individual estimates, which can fall short of
the estimator's value on the joined content. -/
theorem token_count_le_estimate (ck : DocumentChunker) (text : List Char)
    (source_id : Option (List Char)) (metadata : Option Dict) :
    (∀ c ∈ ck.chunk_text text source_id metadata,
      c.token_count ≤ estimate_tokens c.content) ∧
    (∀ c ∈ ck.chunk_markdown text source_id metadata,
      c.token_count ≤ estimate_tokens c.content) :=
  ⟨(chunk_text_invariants ck text source_id metadata).1,
   (chunk_markdown_invariants ck text source_id metadata).1⟩

/-- Witness for the amended C1 theorem at a concrete input. -/
theorem token_count_le_estimate_witness :
    (⟨"aaa\n\nbbb".toList, 0, 2, 10, 0, [("chunk_index", MetaVal.nat 0)]⟩ : Chunk).token_count ≤
      estimate_tokens
        (⟨"aaa\n\nbbb".toList, 0, 2, 10, 0, [("chunk_index", MetaVal.nat 0)]⟩ : Chunk).content :=
  (token_count_le_estimate (DocumentChunker.make defaultSettings none none)
    ("aaa\n\nbbb".toList) none none).1 _ (by decide)

/-- Claim C2 (code bug): constructing a `DocumentChunker` with
`chunk_overlap` explicitly 0 does not disable overlap.  Because `__init__`
uses `chunk_overlap or settings.chunk_overlap_tokens` and `0` is falsy in
Python, the stored overlap becomes the settings default 50; with
`chunk_size=2` and `chunk_overlap=0` the second chunk of
`"aaaabbbb\n\nccccdddd"` starts with the entire content of the first. -/
theorem overlap_zero_not_disabled :
    (DocumentChunker.make defaultSettings none (some 0)).chunk_overlap = 50 ∧
    ((DocumentChunker.make defaultSettings (some 2) (some 0)).chunk_text
        ("aaaabbbb\n\nccccdddd".toList) none none).map Chunk.content =
      ["aaaabbbb".toList, "aaaabbbb\n\nccccdddd".toList] ∧
    ("aaaabbbb".toList).isPrefixOf ("aaaabbbb\n\nccccdddd".toList) = true := by
  decide

/-- Claim C3 (code bug): the constructor performs no validation at all.
`DocumentChunker(chunk_size=-5, chunk_overlap=-3)` silently returns an
instance holding the negative budgets (negative ints are truthy, so they are
stored as-is); there is no configuration-error path in `__init__`. -/
theorem negative_config_accepted :
    DocumentChunker.make defaultSettings (some (-5)) (some (-3)) =
      ⟨(-5 : Int), (-3 : Int)⟩ := by
  decide

/-- Claim C4 (code bug): the caller's metadata dict is mutated in place.
`base_metadata = metadata or {}` aliases a truthy caller dict, and
`base_metadata["source_id"] = source_id` then adds the key to the caller's
own mapping: after `chunk_text("hello", source_id="s",
metadata={"case_id": "X"})` the caller's dict has gained `"source_id"`. -/
theorem caller_metadata_mutated :
    metadataAfterCall (some [("case_id", MetaVal.str ['X'])]) (some ['s']) =
      some [("case_id", MetaVal.str ['X']), ("source_id", MetaVal.str ['s'])] ∧
    metadataAfterCall (some [("case_id", MetaVal.str ['X'])]) (some ['s']) ≠
      some [("case_id", MetaVal.str ['X'])] := by
  decide

/-- Claim C5 (code bug): when `chunk_markdown` renumbers the sub-chunks of an
oversized section it reassigns `index` (and shifts the offsets) but leaves
`metadata["chunk_index"]` at its value local to the inner `chunk_text` call:
with `chunk_size=3` the input `"# A\n\nsmall\n\n# B\n\ncccccccccccc"`
produces a second chunk with `index = 1` but `metadata["chunk_index"] = 0`. -/
theorem subchunk_metadata_index_stale :
    ((DocumentChunker.make defaultSettings (some 3) (some 50)).chunk_markdown
        ("# A\n\nsmall\n\n# B\n\ncccccccccccc".toList) none none).map
      (fun c => (c.index, dictGet? c.metadata "chunk_index")) =
      [(0, some (MetaVal.nat 0)), (1, some (MetaVal.nat 0))] := by
  decide

/-- Claim C6 (confirmed): dropping the annotations of `chunkTextA` gives
exactly `chunk_text`, and every chunk annotated as formed purely from atomic
units each individually within `chunk_size` (flag `true`) has
`token_count ≤ chunk_size + (estimate of the unit added last)`: the overflow
is bounded by one atomic unit, never unbounded. -/
theorem pure_atomic_soft_cap (ck : DocumentChunker) (text : List Char)
    (source_id : Option (List Char)) (metadata : Option Dict) :
    ck.chunk_text text source_id metadata =
      (chunkTextA ck text source_id metadata).map Prod.fst ∧
    ∀ p ∈ chunkTextA ck text source_id metadata, p.2.1 = true →
      (p.1.token_count : Int) ≤ ck.chunk_size + (p.2.2 : Int) :=
  chunkTextA_sound ck text source_id metadata

/-- Witness for the C6 theorem at a concrete input: the first chunk of
`"aaaabbbb\n\nccccdddd"` under `chunk_size=2` is pure-atomic and respects the
soft cap. -/
theorem pure_atomic_soft_cap_witness :
    ((⟨"aaaabbbb".toList, 0, 2, 10, 2, [("chunk_index", MetaVal.nat 0)]⟩ : Chunk), true, 2) ∈
      chunkTextA (DocumentChunker.make defaultSettings (some 2) (some 50))
        ("aaaabbbb\n\nccccdddd".toList) none none ∧
    ((⟨"aaaabbbb".toList, 0, 2, 10, 2, [("chunk_index", MetaVal.nat 0)]⟩ : Chunk).token_count : Int) ≤
      (DocumentChunker.make defaultSettings (some 2) (some 50)).chunk_size + ((2 : Nat) : Int) :=
  ⟨by decide,
   (pure_atomic_soft_cap (DocumentChunker.make defaultSettings (some 2) (some 50))
      ("aaaabbbb\n\nccccdddd".toList) none none).2
     (⟨"aaaabbbb".toList, 0, 2, 10, 2, [("chunk_index", MetaVal.nat 0)]⟩, true, 2)
     (by decide) rfl⟩

/-- Claim C7, counterexample: on headingless input `chunk_markdown` does not
return the same chunks as `chunk_text`.  For `"hello"` under the default
configuration the markdown path emits the whole section verbatim with offsets
`(0, 5)` while `chunk_text` emits offsets `(2, 7)` (its cursor adds the
paragraph separator before subtracting the content length). -/
theorem markdown_headingless_offsets_differ :
    ((DocumentChunker.make defaultSettings none none).chunk_markdown
        ("hello".toList) none none).map (fun c => (c.start_char, c.end_char)) =
      [((0 : Int), (5 : Int))] ∧
    ((DocumentChunker.make defaultSettings none none).chunk_text
        ("hello".toList) none none).map (fun c => (c.start_char, c.end_char)) =
      [((2 : Int), (7 : Int))] ∧
    ((DocumentChunker.make defaultSettings none none).chunk_markdown
        ("hello".toList) none none).map (fun c => (c.start_char, c.end_char)) ≠
      ((DocumentChunker.make defaultSettings none none).chunk_text
        ("hello".toList) none none).map (fun c => (c.start_char, c.end_char)) := by
  refine ⟨by decide, by decide, ?_⟩
  decide

/-- Claim C7, amended: for headingless input the whole text is a single
section; if its estimate exceeds `chunk_size`, `chunk_markdown` returns
exactly the `chunk_text` output computed with the empty `"headers"` mapping
merged into the base metadata (same contents, indices, offsets and token
counts); if it fits, the result is one verbatim chunk of the entire input. -/
theorem markdown_headingless_behavior (ck : DocumentChunker) (text : List Char)
    (source_id : Option (List Char)) (metadata : Option Dict)
    (hh : hasHeadingLine text = false) (hs : pyStrip text ≠ []) :
    ((estimate_tokens text : Int) ≤ ck.chunk_size →
      ck.chunk_markdown text source_id metadata =
        [⟨text, 0, (0 : Int), (text.length : Int), estimate_tokens text,
          dictInsert (dictInsert (mkBaseMetadata metadata source_id)
            "chunk_index" (MetaVal.nat 0)) "headers" (MetaVal.headers [])⟩]) ∧
    (¬ (estimate_tokens text : Int) ≤ ck.chunk_size →
      ck.chunk_markdown text source_id metadata =
        ck.chunk_text text source_id
          (some (dictInsert (mkBaseMetadata metadata source_id)
            "headers" (MetaVal.headers [])))) :=
  chunk_markdown_headingless ck text source_id metadata hh hs

/-- Witness for the amended C7 theorem at a concrete oversized headingless
input. -/
theorem markdown_headingless_behavior_witness :
    hasHeadingLine ("dddddddd\n\nee".toList) = false ∧
    pyStrip ("dddddddd\n\nee".toList) ≠ [] ∧
    ((¬ (estimate_tokens ("dddddddd\n\nee".toList) : Int) ≤
        (DocumentChunker.make defaultSettings (some 1) (some 50)).chunk_size) →
      (DocumentChunker.make defaultSettings (some 1) (some 50)).chunk_markdown
          ("dddddddd\n\nee".toList) none none =
        (DocumentChunker.make defaultSettings (some 1) (some 50)).chunk_text
          ("dddddddd\n\nee".toList) none
          (some (dictInsert (mkBaseMetadata none none)
            "headers" (MetaVal.headers [])))) :=
  ⟨by decide, by decide,
   (markdown_headingless_behavior (DocumentChunker.make defaultSettings (some 1) (some 50))
      ("dddddddd\n\nee".toList) none none (by decide) (by decide)).2⟩

/-- Claim C8 (confirmed): for every input and configuration the chunk stored
at position `i` of the result of `chunk_text` or `chunk_markdown` carries
`index = i`: indices are zero-based, contiguous and strictly increasing,
including across sub-split markdown sections. -/
theorem index_contiguous (ck : DocumentChunker) (text : List Char)
    (source_id : Option (List Char)) (metadata : Option Dict) (i : Nat) (c : Chunk) :
    ((ck.chunk_text text source_id metadata)[i]? = some c → c.index = i) ∧
    ((ck.chunk_markdown text source_id metadata)[i]? = some c → c.index = i) :=
  ⟨fun h => (chunk_text_invariants ck text source_id metadata).2.2 i c h,
   fun h => (chunk_markdown_invariants ck text source_id metadata).2.2 i c h⟩

/-- Witness for the C8 theorem at a concrete input. -/
theorem index_contiguous_witness :
    (⟨"aaaabbbb\n\nccccdddd".toList, 1, 2, 20, 4,
        [("chunk_index", MetaVal.nat 1)]⟩ : Chunk).index = 1 :=
  (index_contiguous (DocumentChunker.make defaultSettings (some 2) (some 50))
    ("aaaabbbb\n\nccccdddd".toList) none none 1 _).1 (by decide)

/-- Claim C9 (confirmed): every chunk emitted by `chunk_markdown` carries a
`"headers"` snapshot in its metadata, and on the input
`"# A\n\n## B\n\ntext\n\n# C\n\ntext2"` the snapshots follow the scope rule —
in particular the chunk containing `text2` has headers `{1: "C"}` (the
level-2 heading `B` was discarded when the new level-1 heading `C` arrived). -/
theorem headers_snapshot :
    (∀ (ck : DocumentChunker) (text : List Char) (source_id : Option (List Char))
      (metadata : Option Dict), ∀ c ∈ ck.chunk_markdown text source_id metadata,
        ∃ hs, dictGet? c.metadata "headers" = some (MetaVal.headers hs)) ∧
    ((DocumentChunker.make defaultSettings none none).chunk_markdown
        ("# A\n\n## B\n\ntext\n\n# C\n\ntext2".toList) none none).map
      (fun c => (c.content, dictGet? c.metadata "headers")) =
      [("# A\n\n".toList, some (MetaVal.headers [(1, ['A'])])),
       ("## B\n\ntext\n\n".toList, some (MetaVal.headers [(1, ['A']), (2, ['B'])])),
       ("# C\n\ntext2".toList, some (MetaVal.headers [(1, ['C'])]))] :=
  ⟨fun ck text source_id metadata => chunk_markdown_hdrOk ck text source_id metadata,
   by decide⟩

/-- Witness for the C9 theorem at a concrete input. -/
theorem headers_snapshot_witness :
    ∃ hs, dictGet?
        (⟨"# C\n\ntext2".toList, 2, 17, 27, 2,
          [("chunk_index", MetaVal.nat 2),
           ("headers", MetaVal.headers [(1, ['C'])])]⟩ : Chunk).metadata "headers" =
      some (MetaVal.headers hs) :=
  headers_snapshot.1 (DocumentChunker.make defaultSettings none none)
    ("# A\n\n## B\n\ntext\n\n# C\n\ntext2".toList) none none _ (by decide)

/-- Claim C10 (confirmed): for every chunk produced by `chunk_text` or
`chunk_markdown` (markdown sub-chunks after their offset shift included),
`end_char - start_char = len(content)`: the offsets always span exactly the
stored content, even where the offsets themselves are approximate. -/
theorem span_matches_content (ck : DocumentChunker) (text : List Char)
    (source_id : Option (List Char)) (metadata : Option Dict) :
    (∀ c ∈ ck.chunk_text text source_id metadata,
      c.end_char - c.start_char = (c.content.length : Int)) ∧
    (∀ c ∈ ck.chunk_markdown text source_id metadata,
      c.end_char - c.start_char = (c.content.length : Int)) :=
  ⟨(chunk_text_invariants ck text source_id metadata).2.1,
   (chunk_markdown_invariants ck text source_id metadata).2.1⟩

/-- Witness for the C10 theorem at a concrete input. -/
theorem span_matches_content_witness :
    (⟨"aaa\n\nbbb".toList, 0, 2, 10, 0, [("chunk_index", MetaVal.nat 0)]⟩ : Chunk).end_char -
        (⟨"aaa\n\nbbb".toList, 0, 2, 10, 0, [("chunk_index", MetaVal.nat 0)]⟩ : Chunk).start_char =
      ((⟨"aaa\n\nbbb".toList, 0, 2, 10, 0,
          [("chunk_index", MetaVal.nat 0)]⟩ : Chunk).content.length : Int) :=
  (span_matches_content (DocumentChunker.make defaultSettings none none)
    ("aaa\n\nbbb".toList) none none).1 _ (by decide)

end Chunker
